import Mathlib

/-!
# f5-validator: reconciliation of declared and actual virtual-server rule lists

A shallow embedding of `f5-validator/main.go` and a verification of its
specification.

Modelling conventions.

* A Go `string` is its byte sequence (`GoString`); `str "abc"` is the UTF-8
  encoding of a literal, `len(s)` is `List.length` and `s[8:]` is `List.drop 8`
  guarded by the run-time bounds check.
* A Go `[]string` is a `List GoString`; a nil slice and an empty slice are both `[]`.
* A Go `map[string][]string` is an association list with `GoMap.get?` for
  `m[k]` and `GoMap.set` for `m[k] = v`.  A `range` loop over a map visits its
  entries in an unspecified order: the order of the association list stands for
  the order of one particular run, and a statement quantified over all lists
  covers every order.  The keys of a Go map are distinct (`GoMap.WF`).
* A Go function returning `(T, error)` returns an `Outcome T`: `ok v` is
  `(v, nil)`, `error msg` is `(nil, err)` with `err.Error() = msg`, and `panic`
  is a run-time panic (index or slice bounds out of range).
-/

namespace F5Validator

/-- A Go string: a sequence of bytes. -/
abbrev GoString := List UInt8

/-- The Go string written as the literal `s` (its UTF-8 bytes). -/
def str (s : String) : GoString := s.data.flatMap String.utf8EncodeChar

/-- A Go `map[string][]string`, as an association list. -/
abbrev GoMap := List (GoString × List GoString)

namespace GoMap

/-- The lookup `v, ok := m[k]`: `none` when `ok` is false. -/
def get? : GoMap → GoString → Option (List GoString)
  | [], _ => none
  | (k', v) :: rest, k => if k' = k then some v else get? rest k

/-- The assignment `m[k] = v`: replaces the entry of `k` or adds one. -/
def set : GoMap → GoString → List GoString → GoMap
  | [], k, v => [(k, v)]
  | (k', v') :: rest, k, v => if k' = k then (k, v) :: rest else (k', v') :: set rest k v

/-- The keys of the map, in entry order. -/
def keys (m : GoMap) : List GoString := m.map Prod.fst

/-- The keys of a Go map are pairwise distinct. -/
def WF (m : GoMap) : Prop := (keys m).Nodup

instance (m : GoMap) : Decidable (WF m) := by unfold WF; infer_instance

end GoMap

/-- The result of a Go call: a value, a returned `error`, or a run-time panic. -/
inductive Outcome (α : Type) where
  | ok (val : α)
  | error (msg : GoString)
  | panic (msg : String)
  deriving DecidableEq

/-- The message of `errors.Errorf("f5 vip %s is not found in the terraform configs", name)`. -/
def notFoundMessage (name : GoString) : GoString :=
  str "f5 vip " ++ name ++ str " is not found in the terraform configs"

/-- An error message names a key when the key occurs in it. -/
def Names (msg key : GoString) : Prop := key <:+: msg

instance (msg key : GoString) : Decidable (Names msg key) := by unfold Names; infer_instance

/-- The loop `for idx, tfIrule := range terraformIrules` of `compareVips` (lines 48-53),
started at index `idx`: `ok true` when the `break` branch records the resource,
`ok false` when the loop runs to its end, a panic when `f5Irules[idx]` is out of range. -/
def irulesMismatch (f5Irules : List GoString) : List GoString → Nat → Outcome Bool
  | [], _ => .ok false
  | tfIrule :: rest, idx =>
    match f5Irules[idx]? with
    | none => .panic "index out of range"
    | some f5Irule =>
      if tfIrule ≠ f5Irule then .ok true else irulesMismatch f5Irules rest (idx + 1)

/-- The loop `for terraformVipName, terraformIrules := range terraformVips` of
`compareVips` (lines 39-54) over the entries still to visit, with the current
`diffIrules`, followed by `return diffIrules, nil`. -/
def compareLoop (f5Map : GoMap) : List (GoString × List GoString) → GoMap → Outcome GoMap
  | [], diffIrules => .ok diffIrules
  | (terraformVipName, terraformIrules) :: rest, diffIrules =>
    match GoMap.get? f5Map terraformVipName with
    | none => .error (notFoundMessage terraformVipName)
    | some f5Irules =>
      if f5Irules.length ≠ terraformIrules.length then
        compareLoop f5Map rest (GoMap.set diffIrules terraformVipName f5Irules)
      else
        match irulesMismatch f5Irules terraformIrules 0 with
        | .ok true => compareLoop f5Map rest (GoMap.set diffIrules terraformVipName f5Irules)
        | .ok false => compareLoop f5Map rest diffIrules
        | .error msg => .error msg
        | .panic msg => .panic msg

/-- The function `compareVips(f5Map, terraformVips)`; `terraformVips` is given in the
order in which the `range` loop visits it. -/
def compareVips (f5Map terraformVips : GoMap) : Outcome GoMap :=
  compareLoop f5Map terraformVips []

/-- The effect of one visited entry on `diffIrules` when its key is on the device. -/
def record (f5Map : GoMap) (diffIrules : GoMap) (e : GoString × List GoString) : GoMap :=
  match GoMap.get? f5Map e.1 with
  | some f5Irules => if f5Irules = e.2 then diffIrules else GoMap.set diffIrules e.1 f5Irules
  | none => diffIrules

/-- A pair `(k, v)` is recorded by the visit of `D` when `v` is the device list of `k` and
some visited entry of `k` carries a different list. -/
def Recorded (f5Map : GoMap) (D : List (GoString × List GoString)) (k : GoString)
    (v : List GoString) : Prop :=
  GoMap.get? f5Map k = some v ∧ ∃ e ∈ D, e.1 = k ∧ e.2 ≠ v

/-! ## Token Extractor: the decoder and `decodeJSON` -/

/-- A `json.Delim` token. -/
inductive Delim where
  | lbracket
  | rbracket
  | lbrace
  | rbrace
  deriving DecidableEq

/-- A value returned by `(*json.Decoder).Token`.  Object keys and string values are both Go
strings; the payload of a number is never inspected by the program. -/
inductive Token where
  | delim (d : Delim)
  | string (s : GoString)
  | number (n : Int)
  | bool (b : Bool)
  | null
  deriving DecidableEq

/-- A generic value tree, as produced by `hcl.Unmarshal` into an `interface{}` and serialized
by `json.Marshal`: scalars, arrays, and objects whose members are in document order. -/
inductive Json where
  | null
  | bool (b : Bool)
  | number (n : Int)
  | string (s : GoString)
  | array (elems : List Json)
  | object (members : List (GoString × Json))

mutual
/-- The token stream of a tree in document order: what successive calls of `dec.Token()`
return for the serialized tree (commas and colons are not tokens). -/
def Json.tokens : Json → List Token
  | .null => [.null]
  | .bool b => [.bool b]
  | .number n => [.number n]
  | .string s => [.string s]
  | .array elems => .delim .lbracket :: (tokensElems elems ++ [.delim .rbracket])
  | .object members => .delim .lbrace :: (tokensMembers members ++ [.delim .rbrace])
/-- The tokens of the elements of an array. -/
def tokensElems : List Json → List Token
  | [] => []
  | x :: xs => x.tokens ++ tokensElems xs
/-- The tokens of the members of an object: each key, then its value. -/
def tokensMembers : List (GoString × Json) → List Token
  | [] => []
  | (k, v) :: ms => .string k :: (v.tokens ++ tokensMembers ms)
end

/-- The call `dec.More()` on a decoder with the given unread tokens: false at the end of the
input and when the next token closes the current array or object. -/
def more : List Token → Bool
  | [] => false
  | .delim .rbracket :: _ => false
  | .delim .rbrace :: _ => false
  | _ :: _ => true

/-- The loop `for dec.More()` under `if propName == "name"` (lines 76-87): returns the new
`vipName` and the unread tokens. -/
def nameLoop : List Token → GoString → GoString × List Token
  | [], vipName => (vipName, [])
  | t :: rest, vipName =>
    if more (t :: rest) then
      match t with
      | .string value => (value, rest)
      | _ => nameLoop rest vipName
    else (vipName, t :: rest)

/-- The loop `for dec.More()` under `if propName == "irules"` (lines 90-100): returns the new
`vipirules` and the unread tokens. -/
def irulesLoop : List Token → List GoString → List GoString × List Token
  | [], vipirules => (vipirules, [])
  | t :: rest, vipirules =>
    if more (t :: rest) then
      match t with
      | .string rule => irulesLoop rest (vipirules ++ [rule])
      | _ => irulesLoop rest vipirules
    else (vipirules, t :: rest)

/-- The outer loop `for { t, err := dec.Token() ... }` of `decodeJSON` (lines 63-102) on a
decoder with unread tokens `dec`, followed by `return vipName, vipirules`.  It is total: every
iteration reads at least one token. -/
def decodeLoop (dec : List Token) (vipName : GoString) (vipirules : List GoString) :
    GoString × List GoString :=
  match dec with
  | [] => (vipName, vipirules)
  | t :: rest =>
    match t with
    | .string propName =>
      let afterName := if propName = str "name" then nameLoop rest vipName else (vipName, rest)
      let afterIrules :=
        if propName = str "irules" then irulesLoop afterName.2 vipirules
        else (vipirules, afterName.2)
      decodeLoop afterIrules.2 afterName.1 afterIrules.1
    | _ => decodeLoop rest vipName vipirules
termination_by dec.length
decreasing_by
  · have hn : ∀ (d : List Token) (v : GoString), (nameLoop d v).2.length ≤ d.length := by
      intro d v
      induction d with
      | nil => simp [nameLoop]
      | cons t rest ih =>
        unfold nameLoop
        split
        · split
          · simp
          · simp; omega
        · simp
    have hi : ∀ (d : List Token) (v : List GoString), (irulesLoop d v).2.length ≤ d.length := by
      intro d
      induction d with
      | nil => simp [irulesLoop]
      | cons t rest ih =>
        intro v
        unfold irulesLoop
        split
        · split
          · have := ih (v ++ [‹GoString›]); simp; omega
          · have := ih v; simp; omega
        · simp
    simp only [List.length_cons]
    have h1 := hn rest vipName
    have h2 := hi (nameLoop rest vipName).2 vipirules
    have h3 := hi rest vipirules
    split <;> split <;> simp <;> omega
  · simp

/-- The function `decodeJSON(dec)` on a decoder whose unread tokens are `dec`; `vipName`
starts as the empty string and `vipirules` as the nil slice. -/
def decodeJSON (dec : List Token) : GoString × List GoString := decodeLoop dec (str "") []

/-! ## Declarative File Loader -/

/-- The slice expression `s[low:]`: a run-time panic when `low` exceeds `len(s)`. -/
def sliceFrom (s : GoString) (low : Nat) : Outcome GoString :=
  if s.length < low then .panic "slice bounds out of range" else .ok (s.drop low)

/-- The function `parseTerraformFiles(dir, filename)`.  Reading the file, `hcl.Unmarshal` and
`json.Marshal` belong to the operating system and to libraries: `load dir filename` is the
tree they produce (their failures end the run and are outside the model). -/
def parseTerraformFiles (load : GoString → GoString → Json) (dir filename : GoString) :
    GoString × List GoString :=
  decodeJSON (load dir filename).tokens

/-- The loop `for _, name := range fileNames` of `terraformVipDetails` (lines 174-177) over
the file names still to visit, followed by `return terraformVips`. -/
def terraformVipLoop (load : GoString → GoString → Json) (dir : GoString) :
    List GoString → GoMap → Outcome GoMap
  | [], terraformVips => .ok terraformVips
  | name :: rest, terraformVips =>
    match sliceFrom (parseTerraformFiles load dir name).1 8 with
    | .ok key =>
      terraformVipLoop load dir rest
        (GoMap.set terraformVips key (parseTerraformFiles load dir name).2)
    | .error msg => .error msg
    | .panic msg => .panic msg

/-- The function `terraformVipDetails(dir, fileNames)`. -/
def terraformVipDetails (load : GoString → GoString → Json) (dir : GoString)
    (fileNames : List GoString) : Outcome GoMap :=
  terraformVipLoop load dir fileNames []

/-! ## Specification-side notions for the Token Extractor -/

/-- Whether a value is a scalar string. -/
def Json.isString : Json → Bool
  | .string _ => true
  | _ => false

/-- Whether a value is a scalar (not an array, not an object). -/
def Json.isScalar : Json → Bool
  | .array _ => false
  | .object _ => false
  | _ => true

/-- Whether a value is an array of scalars. -/
def Json.isScalarArray : Json → Bool
  | .array elems => elems.all Json.isScalar
  | _ => false

/-- The string elements of a list of values, in list order. -/
def stringElems : List Json → List GoString
  | [] => []
  | .string s :: xs => s :: stringElems xs
  | _ :: xs => stringElems xs

/-- The scalar string value of a field, if it is one. -/
def scalarString : Json → List GoString
  | .string s => [s]
  | _ => []

/-- The scalar string values of a field: the value itself when it is a string, every string
element in list order when it is a list. -/
def fieldStrings : Json → List GoString
  | .string s => [s]
  | .array elems => stringElems elems
  | _ => []

mutual
/-- The scalar string values of the fields whose key is literally `"name"`, at any depth, in
document order (the specification's notion). -/
def Json.nameFieldValues : Json → List GoString
  | .array elems => nameFieldValuesElems elems
  | .object members => nameFieldValuesMembers members
  | _ => []
/-- The same over the elements of an array. -/
def nameFieldValuesElems : List Json → List GoString
  | [] => []
  | x :: xs => x.nameFieldValues ++ nameFieldValuesElems xs
/-- The same over the members of an object. -/
def nameFieldValuesMembers : List (GoString × Json) → List GoString
  | [] => []
  | (k, v) :: ms =>
    (if k = str "name" then scalarString v else []) ++ v.nameFieldValues ++
      nameFieldValuesMembers ms
end

mutual
/-- The scalar string values of the fields whose key is literally `"irules"`, at any depth:
every string element in list order, occurrences appended in document order (the
specification's notion). -/
def Json.irulesFieldValues : Json → List GoString
  | .array elems => irulesFieldValuesElems elems
  | .object members => irulesFieldValuesMembers members
  | _ => []
/-- The same over the elements of an array. -/
def irulesFieldValuesElems : List Json → List GoString
  | [] => []
  | x :: xs => x.irulesFieldValues ++ irulesFieldValuesElems xs
/-- The same over the members of an object. -/
def irulesFieldValuesMembers : List (GoString × Json) → List GoString
  | [] => []
  | (k, v) :: ms =>
    (if k = str "irules" then fieldStrings v else []) ++ v.irulesFieldValues ++
      irulesFieldValuesMembers ms
end

mutual
/-- A tree is plain when every field keyed `"name"` holds a scalar string, every field keyed
`"irules"` holds a list of scalars, and no other string value (a field value or an array
element outside those fields) is `"name"` or `"irules"`. -/
def Json.plain : Json → Bool
  | .string s => s ≠ str "name" && s ≠ str "irules"
  | .array elems => plainElems elems
  | .object members => plainMembers members
  | _ => true
/-- Plainness of the elements of an array. -/
def plainElems : List Json → Bool
  | [] => true
  | x :: xs => x.plain && plainElems xs
/-- Plainness of the members of an object. -/
def plainMembers : List (GoString × Json) → Bool
  | [] => true
  | (k, v) :: ms =>
    (if k = str "name" then v.isString
     else if k = str "irules" then v.isScalarArray
     else v.plain) && plainMembers ms
end

/-- The last element of `xs`, or `n` when `xs` is empty. -/
def lastOr (n : GoString) (xs : List GoString) : GoString := xs.foldl (fun _ x => x) n

mutual
/-- The values of the fields whose key is literally `key`, at any depth, in document order. -/
def Json.fieldValues (key : GoString) : Json → List Json
  | .array elems => fieldValuesElems key elems
  | .object members => fieldValuesMembers key members
  | _ => []
/-- The same over the elements of an array. -/
def fieldValuesElems (key : GoString) : List Json → List Json
  | [] => []
  | x :: xs => x.fieldValues key ++ fieldValuesElems key xs
/-- The same over the members of an object. -/
def fieldValuesMembers (key : GoString) : List (GoString × Json) → List Json
  | [] => []
  | (k, v) :: ms =>
    (if k = key then [v] else []) ++ v.fieldValues key ++ fieldValuesMembers key ms
end

/-! ## Concrete trees -/

/-- A declarative file as the loader sees it: a resource block of type
`bigip_ltm_virtual_server` named `ltm_vs_checkout` with (sorted) attributes `destination`,
`irules`, `name` and `port`. -/
def checkoutFile : Json :=
  .object [(str "resource", .array [.object [(str "bigip_ltm_virtual_server", .array [.object
    [(str "ltm_vs_checkout", .array [.object
      [(str "destination", .string (str "10.0.0.1")),
       (str "irules", .array [.string (str "rule-a"), .string (str "rule-b")]),
       (str "name", .string (str "/Common/checkout")),
       (str "port", .number 443)]])]])]])]

/-- An object with a field `name` and, nested in a later field, another field `name`. -/
def laterNameTree : Json :=
  .object [(str "name", .string (str "vip-a")),
    (str "nested", .object [(str "name", .string (str "vip-b"))])]

/-- An object without a field `name`, in which a field has the string value `"name"`. -/
def nameValueTree : Json :=
  .object [(str "description", .string (str "name")), (str "pool", .string (str "web"))]

/-- An object whose field `irules` holds a scalar string and is followed by other fields. -/
def scalarIrulesTree : Json :=
  .object [(str "irules", .string (str "rule-a")), (str "name", .string (str "/Common/checkout")),
    (str "pool", .string (str "web"))]

/-- The fields `name` and `irules` next to two extra fields keyed `description` and `pool`;
the extra field `description` has the string value `"irules"`. -/
def extraValueTree : Json :=
  .object [(str "description", .string (str "irules")),
    (str "irules", .array [.string (str "rule-a")]),
    (str "name", .string (str "/Common/checkout")), (str "pool", .string (str "web"))]

/-- A file whose extracted resource identifier is `ltm_vs_checkout`. -/
def ltmFile : Json :=
  .object [(str "irules", .array [.string (str "rule-a")]),
    (str "name", .string (str "ltm_vs_checkout"))]

/-- A file with no field `name`. -/
def noNameFile : Json := .object [(str "irules", .array [.string (str "rule-a")])]

/-- A file whose extracted name, `vip-1`, has five bytes. -/
def shortNameFile : Json :=
  .object [(str "irules", .array [.string (str "rule-a")]), (str "name", .string (str "vip-1"))]


/-! ## Reconciler: auxiliary facts -/

theorem GoMap.get?_set (m : GoMap) (k k' : GoString) (v : List GoString) :
    GoMap.get? (GoMap.set m k v) k' = if k = k' then some v else GoMap.get? m k' := by
  induction m with
  | nil => simp [GoMap.set, GoMap.get?]
  | cons e rest ih =>
    obtain ⟨k₀, v₀⟩ := e
    by_cases h : k₀ = k
    · subst h
      by_cases h' : k₀ = k' <;> simp [GoMap.set, GoMap.get?, h']
    · by_cases h' : k₀ = k'
      · subst h'
        simp [GoMap.set, GoMap.get?, h, Ne.symm h]
      · simp [GoMap.set, GoMap.get?, h, h', ih]

theorem GoMap.keys_set (m : GoMap) (k : GoString) (v : List GoString) (x : GoString) :
    x ∈ GoMap.keys (GoMap.set m k v) ↔ x = k ∨ x ∈ GoMap.keys m := by
  induction m with
  | nil => simp [GoMap.set, GoMap.keys]
  | cons e rest ih =>
    obtain ⟨k₀, v₀⟩ := e
    by_cases h : k₀ = k
    · subst h
      simp [GoMap.set, GoMap.keys]
    · have ih' : x ∈ List.map Prod.fst (GoMap.set rest k v) ↔ x = k ∨ x ∈ List.map Prod.fst rest := ih
      simp only [GoMap.set, GoMap.keys, h, if_false, List.map_cons, List.mem_cons, ih']
      tauto

theorem GoMap.wf_set (m : GoMap) (k : GoString) (v : List GoString) (hm : GoMap.WF m) :
    GoMap.WF (GoMap.set m k v) := by
  induction m with
  | nil => simp [GoMap.set, GoMap.WF, GoMap.keys]
  | cons e rest ih =>
    obtain ⟨k₀, v₀⟩ := e
    have hm' : k₀ ∉ GoMap.keys rest ∧ GoMap.WF rest := by
      simpa [GoMap.WF, GoMap.keys] using hm
    by_cases h : k₀ = k
    · subst h
      simpa [GoMap.set, GoMap.WF, GoMap.keys] using hm
    · have h1 : k₀ ∉ GoMap.keys (GoMap.set rest k v) := by
        rw [GoMap.keys_set]
        rintro (h2 | h2)
        · exact h h2
        · exact hm'.1 h2
      have h2 : GoMap.WF (GoMap.set rest k v) := ih hm'.2
      simp only [GoMap.set, h, if_false]
      exact List.nodup_cons.mpr ⟨h1, h2⟩

theorem GoMap.get?_eq_some_of_mem (m : GoMap) (hm : GoMap.WF m) (k : GoString)
    (v : List GoString) (h : (k, v) ∈ m) : GoMap.get? m k = some v := by
  induction m with
  | nil => simp at h
  | cons e rest ih =>
    obtain ⟨k₀, v₀⟩ := e
    have hm' : k₀ ∉ GoMap.keys rest ∧ GoMap.WF rest := by
      simpa [GoMap.WF, GoMap.keys] using hm
    rcases List.mem_cons.mp h with h | h
    · cases h
      simp [GoMap.get?]
    · have hk : k₀ ≠ k := by
        rintro rfl
        exact hm'.1 (List.mem_map_of_mem Prod.fst h)
      simp [GoMap.get?, hk, ih hm'.2 h]

theorem GoMap.mem_of_get?_eq_some (m : GoMap) (k : GoString) (v : List GoString)
    (h : GoMap.get? m k = some v) : (k, v) ∈ m := by
  induction m with
  | nil => simp [GoMap.get?] at h
  | cons e rest ih =>
    obtain ⟨k₀, v₀⟩ := e
    by_cases hk : k₀ = k
    · subst hk
      simp [GoMap.get?] at h
      simp [h]
    · simp [GoMap.get?, hk] at h
      exact List.mem_cons_of_mem _ (ih h)

theorem GoMap.get?_isSome_iff (m : GoMap) (k : GoString) :
    (GoMap.get? m k).isSome ↔ k ∈ GoMap.keys m := by
  induction m with
  | nil => simp [GoMap.get?, GoMap.keys]
  | cons e rest ih =>
    obtain ⟨k₀, v₀⟩ := e
    by_cases hk : k₀ = k
    · simp [GoMap.get?, GoMap.keys, hk]
    · have ih' : (GoMap.get? rest k).isSome ↔ k ∈ List.map Prod.fst rest := ih
      simp only [GoMap.get?, GoMap.keys, hk, if_false, List.map_cons, List.mem_cons, ih']
      constructor
      · exact Or.inr
      · rintro (h | h)
        · exact absurd h.symm hk
        · exact h

theorem irulesMismatch_eq (f5Irules : List GoString) (tfIrules : List GoString) (idx : Nat)
    (hlen : f5Irules.length = idx + tfIrules.length) :
    irulesMismatch f5Irules tfIrules idx = .ok (decide (f5Irules.drop idx ≠ tfIrules)) := by
  induction tfIrules generalizing idx with
  | nil =>
    have h : f5Irules.drop idx = [] := List.drop_eq_nil_of_le (by simp at hlen; omega)
    simp [irulesMismatch, h]
  | cons t rest ih =>
    have hlt : idx < f5Irules.length := by simp at hlen; omega
    have hdrop : f5Irules.drop idx = f5Irules[idx] :: f5Irules.drop (idx + 1) :=
      List.drop_eq_getElem_cons hlt
    have hget : f5Irules[idx]? = some f5Irules[idx] := List.getElem?_eq_getElem hlt
    have hrest := ih (idx + 1) (by simp at hlen ⊢; omega)
    simp only [irulesMismatch, hget]
    by_cases h : t = f5Irules[idx]
    · rw [if_neg (not_not_intro h), hrest]
      congr 1
      apply decide_eq_decide.mpr
      rw [hdrop, h]
      simp only [ne_eq, List.cons.injEq, true_and]
    · rw [if_pos h]
      congr 1
      symm
      apply decide_eq_true
      rw [hdrop]
      intro e
      exact h (List.head_eq_of_cons_eq e).symm

theorem compareLoop_step (f5Map : GoMap) (e : GoString × List GoString)
    (rest : List (GoString × List GoString)) (diffIrules : GoMap)
    (h : (GoMap.get? f5Map e.1).isSome) :
    compareLoop f5Map (e :: rest) diffIrules = compareLoop f5Map rest (record f5Map diffIrules e) := by
  obtain ⟨k, d⟩ := e
  obtain ⟨a, ha⟩ := Option.isSome_iff_exists.mp h
  simp only at ha
  by_cases hlen : a.length = d.length
  · have hm := irulesMismatch_eq a d 0 (by simpa using hlen)
    simp only [List.drop_zero] at hm
    by_cases had : a = d
    · subst had
      simp [compareLoop, record, ha, hm]
    · simp [compareLoop, record, ha, hlen, hm, had]
  · have had : a ≠ d := fun e => hlen (by rw [e])
    simp [compareLoop, record, ha, hlen, had]

theorem compareLoop_ok (f5Map : GoMap) (D : List (GoString × List GoString)) (diffIrules : GoMap)
    (h : ∀ e ∈ D, (GoMap.get? f5Map e.1).isSome) :
    compareLoop f5Map D diffIrules = .ok (D.foldl (record f5Map) diffIrules) := by
  induction D generalizing diffIrules with
  | nil => simp [compareLoop]
  | cons e rest ih =>
    rw [compareLoop_step f5Map e rest diffIrules (h e (List.mem_cons_self _ _))]
    rw [ih _ (fun e' he' => h e' (List.mem_cons_of_mem _ he'))]
    simp

theorem compareLoop_missing (f5Map : GoMap) (pre : List (GoString × List GoString))
    (e : GoString × List GoString) (post : List (GoString × List GoString)) (diffIrules : GoMap)
    (hpre : ∀ p ∈ pre, (GoMap.get? f5Map p.1).isSome) (he : GoMap.get? f5Map e.1 = none) :
    compareLoop f5Map (pre ++ e :: post) diffIrules = .error (notFoundMessage e.1) := by
  induction pre generalizing diffIrules with
  | nil =>
    obtain ⟨k, d⟩ := e
    simp only at he
    simp [compareLoop, he]
  | cons p rest ih =>
    rw [List.cons_append, compareLoop_step f5Map p _ diffIrules (hpre p (List.mem_cons_self _ _))]
    exact ih _ (fun q hq => hpre q (List.mem_cons_of_mem _ hq))

/-- Splits the visiting order at the first entry whose key is not on the device. -/
theorem exists_first_missing (f5Map : GoMap) (D : List (GoString × List GoString))
    (h : ∃ e ∈ D, GoMap.get? f5Map e.1 = none) :
    ∃ pre e post, D = pre ++ e :: post ∧ (∀ p ∈ pre, (GoMap.get? f5Map p.1).isSome) ∧
      GoMap.get? f5Map e.1 = none := by
  induction D with
  | nil => obtain ⟨e, he, _⟩ := h; simp at he
  | cons x rest ih =>
    by_cases hx : GoMap.get? f5Map x.1 = none
    · exact ⟨[], x, rest, rfl, by simp, hx⟩
    · have hrest : ∃ e ∈ rest, GoMap.get? f5Map e.1 = none := by
        obtain ⟨e, he, hnone⟩ := h
        rcases List.mem_cons.mp he with rfl | he
        · exact absurd hnone hx
        · exact ⟨e, he, hnone⟩
      obtain ⟨pre, e, post, hD, hpre, he⟩ := ih hrest
      refine ⟨x :: pre, e, post, by simp [hD], ?_, he⟩
      intro p hp
      rcases List.mem_cons.mp hp with rfl | hp
      · exact Option.ne_none_iff_isSome.mp hx
      · exact hpre p hp

theorem foldl_record_get? (f5Map : GoMap) (D : List (GoString × List GoString)) (acc : GoMap)
    (k : GoString) (v : List GoString) :
    GoMap.get? (D.foldl (record f5Map) acc) k = some v ↔
      Recorded f5Map D k v ∨ (GoMap.get? acc k = some v ∧ ¬ ∃ w, Recorded f5Map D k w) := by
  induction D generalizing acc with
  | nil => simp [Recorded]
  | cons e rest ih =>
    obtain ⟨k₀, d⟩ := e
    rw [List.foldl_cons, ih]
    have hrec : ∀ w, Recorded f5Map ((k₀, d) :: rest) k w ↔
        (GoMap.get? f5Map k = some w ∧ k₀ = k ∧ d ≠ w) ∨ Recorded f5Map rest k w := by
      intro w
      simp only [Recorded, List.mem_cons, exists_eq_or_imp]
      tauto
    cases ha : GoMap.get? f5Map k₀ with
    | none =>
      have hk : ∀ w, ¬ (GoMap.get? f5Map k = some w ∧ k₀ = k ∧ d ≠ w) := by
        rintro w ⟨h1, rfl, _⟩
        rw [ha] at h1
        cases h1
      simp only [record, ha, hrec]
      constructor
      · rintro (h | ⟨h1, h2⟩)
        · exact Or.inl (Or.inr h)
        · refine Or.inr ⟨h1, ?_⟩
          rintro ⟨w, hw | hw⟩
          · exact hk w hw
          · exact h2 ⟨w, hw⟩
      · rintro (h | ⟨h1, h2⟩)
        · rcases h with h | h
          · exact absurd h (hk v)
          · exact Or.inl h
        · exact Or.inr ⟨h1, fun ⟨w, hw⟩ => h2 ⟨w, Or.inr hw⟩⟩
    | some a =>
      by_cases had : a = d
      · subst had
        have hk : ∀ w, ¬ (GoMap.get? f5Map k = some w ∧ k₀ = k ∧ a ≠ w) := by
          rintro w ⟨h1, rfl, h3⟩
          rw [ha] at h1
          exact h3 (Option.some.inj h1)
        simp only [record, ha, if_true, hrec]
        constructor
        · rintro (h | ⟨h1, h2⟩)
          · exact Or.inl (Or.inr h)
          · refine Or.inr ⟨h1, ?_⟩
            rintro ⟨w, hw | hw⟩
            · exact hk w hw
            · exact h2 ⟨w, hw⟩
        · rintro (h | ⟨h1, h2⟩)
          · rcases h with h | h
            · exact absurd h (hk v)
            · exact Or.inl h
          · exact Or.inr ⟨h1, fun ⟨w, hw⟩ => h2 ⟨w, Or.inr hw⟩⟩
      · simp only [record, ha, had, if_false, hrec, GoMap.get?_set]
        by_cases hkk : k₀ = k
        · subst hkk
          simp only [if_true]
          constructor
          · rintro (h | ⟨h1, h2⟩)
            · exact Or.inl (Or.inr h)
            · have hav : a = v := Option.some.inj h1
              subst hav
              exact Or.inl (Or.inl ⟨ha, trivial, fun e => had e.symm⟩)
          · rintro (h | ⟨h1, h2⟩)
            · rcases h with ⟨h1, _, _⟩ | h
              · rw [ha] at h1
                by_cases hr : ∃ w, Recorded f5Map rest k₀ w
                · obtain ⟨w, hw⟩ := hr
                  have : w = v := by
                    have := hw.1
                    rw [ha] at this
                    exact (Option.some.inj this).symm.trans (Option.some.inj h1)
                  exact Or.inl (this ▸ hw)
                · exact Or.inr ⟨h1, hr⟩
              · exact Or.inl h
            · exact absurd ⟨a, Or.inl ⟨ha, trivial, fun e => had e.symm⟩⟩ h2
        · simp only [hkk, if_false, false_and, and_false, false_or]

theorem foldl_record_wf (f5Map : GoMap) (D : List (GoString × List GoString)) (acc : GoMap)
    (hacc : GoMap.WF acc) : GoMap.WF (D.foldl (record f5Map) acc) := by
  induction D generalizing acc with
  | nil => simpa using hacc
  | cons e rest ih =>
    rw [List.foldl_cons]
    apply ih
    unfold record
    split
    · split
      · exact hacc
      · exact GoMap.wf_set _ _ _ hacc
    · exact hacc

theorem foldl_record_identical (f5Map : GoMap) (D : List (GoString × List GoString))
    (acc : GoMap) (h : ∀ e ∈ D, GoMap.get? f5Map e.1 = some e.2) :
    D.foldl (record f5Map) acc = acc := by
  induction D generalizing acc with
  | nil => rfl
  | cons e rest ih =>
    have he : record f5Map acc e = acc := by
      simp [record, h e (List.mem_cons_self _ _)]
    rw [List.foldl_cons, he]
    exact ih acc (fun e' he' => h e' (List.mem_cons_of_mem _ he'))

theorem GoMap.mem_keys_iff (m : GoMap) (k : GoString) :
    k ∈ GoMap.keys m ↔ ∃ v, (k, v) ∈ m := by
  simp [GoMap.keys]

/-- When the call returns a map, every declared key is on the device. -/
theorem compareVips_ok_keys (A D : GoMap) (m : GoMap) (h : compareVips A D = .ok m) :
    ∀ e ∈ D, (GoMap.get? A e.1).isSome := by
  by_contra hcon
  push_neg at hcon
  obtain ⟨e, he, hnone⟩ := hcon
  have hnone' : GoMap.get? A e.1 = none := by
    cases hg : GoMap.get? A e.1 with
    | none => rfl
    | some a => rw [hg] at hnone; simp at hnone
  obtain ⟨pre, x, post, hD, hpre, hx⟩ := exists_first_missing A D ⟨e, he, hnone'⟩
  have herr := compareLoop_missing A pre x post [] hpre hx
  rw [compareVips, hD, herr] at h
  cases h

theorem list_differs_iff (a d : List GoString) :
    a ≠ d ↔ (a.length ≠ d.length ∨ ∃ i, i < d.length ∧ a[i]? ≠ d[i]?) := by
  constructor
  · intro h
    by_cases hlen : a.length = d.length
    · right
      by_contra hcon
      push_neg at hcon
      apply h
      apply List.ext_getElem? 
      intro i
      by_cases hi : i < d.length
      · exact hcon i hi
      · rw [List.getElem?_eq_none (by omega), List.getElem?_eq_none (by omega)]
    · exact Or.inl hlen
  · rintro (h | ⟨i, _, hi⟩) e
    · exact h (by rw [e])
    · exact hi (by rw [e])

/-! ## Reconciler: the claims -/

/-- C1: when every key of the declared mapping is a key of the actual mapping and carries
the same rule list there, `compareVips` returns no error and a map with no entries. -/
theorem compareVips_identical (A D : GoMap) (hD : GoMap.WF D)
    (h : ∀ k ∈ GoMap.keys D, GoMap.get? A k = GoMap.get? D k) :
    compareVips A D = .ok [] := by
  have hall : ∀ e ∈ D, GoMap.get? A e.1 = some e.2 := by
    intro e he
    have hk : e.1 ∈ GoMap.keys D := List.mem_map_of_mem Prod.fst he
    rw [h e.1 hk]
    exact GoMap.get?_eq_some_of_mem D hD e.1 e.2 he
  have hsome : ∀ e ∈ D, (GoMap.get? A e.1).isSome := by
    intro e he
    rw [hall e he]
    rfl
  rw [compareVips, compareLoop_ok A D [] hsome, foldl_record_identical A D [] hall]

/-- C2: when the map returned by `compareVips` is empty, every key of the declared mapping
is a key of the actual mapping and both rule lists have the same length and the same rule at
every position. -/
theorem compareVips_empty_sound (A D : GoMap) (m : GoMap) (hret : compareVips A D = .ok m)
    (hempty : m = []) :
    ∀ k ∈ GoMap.keys D, ∃ a d, GoMap.get? A k = some a ∧ GoMap.get? D k = some d ∧
      a.length = d.length ∧ ∀ i : Nat, a[i]? = d[i]? := by
  intro k hk
  have hkeys := compareVips_ok_keys A D m hret
  have hfold : D.foldl (record A) [] = [] := by
    have h := hret
    rw [compareVips, compareLoop_ok A D [] hkeys, hempty] at h
    exact Outcome.ok.inj h
  obtain ⟨d, hd⟩ := Option.isSome_iff_exists.mp ((GoMap.get?_isSome_iff D k).mpr hk)
  have hmem : (k, d) ∈ D := GoMap.mem_of_get?_eq_some D k d hd
  obtain ⟨a, ha⟩ := Option.isSome_iff_exists.mp (hkeys (k, d) hmem)
  have had : a = d := by
    by_contra hne
    have hrec : Recorded A D k a := ⟨ha, (k, d), hmem, rfl, fun e => hne e.symm⟩
    have hget := (foldl_record_get? A D [] k a).mpr (Or.inl hrec)
    rw [hfold] at hget
    simp [GoMap.get?] at hget
  subst had
  exact ⟨a, a, ha, hd, rfl, fun _ => rfl⟩

/-- C2 at a concrete input: declared and actual both hold `vip-1` with `[ruleA, ruleB]`, the
returned map is empty, and the declared key `vip-1` is found on the device with the same list. -/
theorem compareVips_empty_sound_witness :
    compareVips [(str "vip-1", [str "ruleA", str "ruleB"])]
      [(str "vip-1", [str "ruleA", str "ruleB"])] = .ok [] ∧
    ∃ a d, GoMap.get? [(str "vip-1", [str "ruleA", str "ruleB"])] (str "vip-1") = some a ∧
      GoMap.get? [(str "vip-1", [str "ruleA", str "ruleB"])] (str "vip-1") = some d ∧
      a.length = d.length ∧ ∀ i : Nat, a[i]? = d[i]? :=
  ⟨by decide, compareVips_empty_sound [(str "vip-1", [str "ruleA", str "ruleB"])]
    [(str "vip-1", [str "ruleA", str "ruleB"])] [] (by decide) rfl (str "vip-1") (by decide)⟩

/-- C1 at the scenario of the specification: declared `vip-1 ↦ [ruleA, ruleB]`, actual the
same (next to a resource that is not declared). -/
theorem compareVips_identical_witness :
    compareVips [(str "vip-0", [str "ruleC"]), (str "vip-1", [str "ruleA", str "ruleB"])]
      [(str "vip-1", [str "ruleA", str "ruleB"])] = .ok [] :=
  compareVips_identical
    [(str "vip-0", [str "ruleC"]), (str "vip-1", [str "ruleA", str "ruleB"])]
    [(str "vip-1", [str "ruleA", str "ruleB"])] (by decide) (by decide)

theorem names_notFoundMessage (k : GoString) : Names (notFoundMessage k) k :=
  ⟨str "f5 vip ", str " is not found in the terraform configs", rfl⟩

/-- C3, as stated, fails: with two declared keys absent from the device the error names the
one visited first and not the other, in either visiting order. -/
theorem compareVips_missing_counterexample :
    (str "vip-2" ∈ GoMap.keys [(str "vip-1", [str "ruleA"]), (str "vip-2", [str "ruleB"])] ∧
      GoMap.get? [] (str "vip-2") = none ∧
      compareVips [] [(str "vip-1", [str "ruleA"]), (str "vip-2", [str "ruleB"])] =
        .error (notFoundMessage (str "vip-1")) ∧
      ¬ Names (notFoundMessage (str "vip-1")) (str "vip-2")) ∧
    (str "vip-1" ∈ GoMap.keys [(str "vip-2", [str "ruleB"]), (str "vip-1", [str "ruleA"])] ∧
      GoMap.get? [] (str "vip-1") = none ∧
      compareVips [] [(str "vip-2", [str "ruleB"]), (str "vip-1", [str "ruleA"])] =
        .error (notFoundMessage (str "vip-2")) ∧
      ¬ Names (notFoundMessage (str "vip-2")) (str "vip-1")) := by
  decide

/-- C3, amended: when some key `k` of the declared mapping is not a key of the actual mapping,
`compareVips` returns an error and no map, whatever the other entries and the visiting order;
the message names the first key in visiting order that is absent from the actual mapping,
which is `k` when `k` is the only absent key. -/
theorem compareVips_missing (A D : GoMap) (k : GoString) (hk : k ∈ GoMap.keys D)
    (hA : GoMap.get? A k = none) :
    ∃ pre e post, D = pre ++ e :: post ∧ (∀ p ∈ pre, (GoMap.get? A p.1).isSome) ∧
      GoMap.get? A e.1 = none ∧
      compareVips A D = .error (notFoundMessage e.1) ∧ Names (notFoundMessage e.1) e.1 ∧
      ((∀ k' ∈ GoMap.keys D, GoMap.get? A k' = none → k' = k) → e.1 = k) := by
  obtain ⟨d, hd⟩ := (GoMap.mem_keys_iff D k).mp hk
  obtain ⟨pre, e, post, hD, hpre, he⟩ := exists_first_missing A D ⟨(k, d), hd, hA⟩
  refine ⟨pre, e, post, hD, hpre, he, ?_, names_notFoundMessage e.1, ?_⟩
  · rw [compareVips, hD]
    exact compareLoop_missing A pre e post [] hpre he
  · intro honly
    apply honly e.1 _ he
    rw [hD]
    simp [GoMap.keys]

/-- C3 at the scenario of the specification: declared `vip-1 ↦ [ruleA]`, actual empty. -/
theorem compareVips_missing_witness :
    ∃ pre e post, [(str "vip-1", [str "ruleA"])] = pre ++ e :: post ∧
      (∀ p ∈ pre, (GoMap.get? [] p.1).isSome) ∧ GoMap.get? [] e.1 = none ∧
      compareVips [] [(str "vip-1", [str "ruleA"])] = .error (notFoundMessage e.1) ∧
      Names (notFoundMessage e.1) e.1 ∧
      ((∀ k' ∈ GoMap.keys [(str "vip-1", [str "ruleA"])], GoMap.get? [] k' = none →
        k' = str "vip-1") → e.1 = str "vip-1") :=
  compareVips_missing [] [(str "vip-1", [str "ruleA"])] (str "vip-1") (by decide) rfl

/-- C4, as stated, fails: `vip-1` is declared and on the device with lists of different
lengths, but another declared key is absent from the device, so an error is returned and no
map holds `vip-1`, in either visiting order. -/
theorem compareVips_length_counterexample :
    GoMap.get? [(str "vip-1", []), (str "vip-2", [])] (str "vip-1") = some [] ∧
    GoMap.get? [(str "vip-1", [str "ruleA"])] (str "vip-1") = some [str "ruleA"] ∧
    [str "ruleA"].length ≠ ([] : List GoString).length ∧
    compareVips [(str "vip-1", [str "ruleA"])] [(str "vip-1", []), (str "vip-2", [])] =
      .error (notFoundMessage (str "vip-2")) ∧
    compareVips [(str "vip-1", [str "ruleA"])] [(str "vip-2", []), (str "vip-1", [])] =
      .error (notFoundMessage (str "vip-2")) := by
  decide

/-- C4, amended: when every key of the declared mapping is a key of the actual mapping, and
`k` is a declared key whose actual and declared lists differ in length, `compareVips` returns
a map that contains `k` mapped to exactly the actual list. -/
theorem compareVips_length (A D : GoMap) (k : GoString) (a d : List GoString)
    (hall : ∀ k' ∈ GoMap.keys D, (GoMap.get? A k').isSome)
    (hd : GoMap.get? D k = some d) (ha : GoMap.get? A k = some a)
    (hlen : a.length ≠ d.length) :
    ∃ m, compareVips A D = .ok m ∧ GoMap.get? m k = some a := by
  have hsome : ∀ e ∈ D, (GoMap.get? A e.1).isSome :=
    fun e he => hall e.1 (List.mem_map_of_mem Prod.fst he)
  refine ⟨D.foldl (record A) [], ?_, ?_⟩
  · rw [compareVips, compareLoop_ok A D [] hsome]
  · apply (foldl_record_get? A D [] k a).mpr
    left
    refine ⟨ha, (k, d), GoMap.mem_of_get?_eq_some D k d hd, rfl, ?_⟩
    intro e
    have e' : d = a := e
    exact hlen (by rw [e'])

/-- C4 at a concrete input: declared `vip-1 ↦ [ruleA]`, actual `vip-1 ↦ [ruleA, ruleB]`. -/
theorem compareVips_length_witness :
    ∃ m, compareVips [(str "vip-1", [str "ruleA", str "ruleB"])] [(str "vip-1", [str "ruleA"])]
        = .ok m ∧
      GoMap.get? m (str "vip-1") = some [str "ruleA", str "ruleB"] :=
  compareVips_length [(str "vip-1", [str "ruleA", str "ruleB"])] [(str "vip-1", [str "ruleA"])]
    (str "vip-1") [str "ruleA", str "ruleB"] [str "ruleA"] (by decide) rfl rfl (by decide)

/-- C5: when every key of the declared mapping is a key of the actual mapping, `compareVips`
returns no error and a map (with distinct keys) that holds `k ↦ v` exactly when `k` is a
declared key, `v` is the actual list of `k`, and `v` differs from the declared list of `k` in
length or at some position. -/
theorem compareVips_divergence (A D : GoMap) (hD : GoMap.WF D)
    (hall : ∀ k ∈ GoMap.keys D, (GoMap.get? A k).isSome) :
    ∃ m, compareVips A D = .ok m ∧ GoMap.WF m ∧
      ∀ (k : GoString) (v : List GoString), GoMap.get? m k = some v ↔
        ∃ d, GoMap.get? D k = some d ∧ GoMap.get? A k = some v ∧
          (v.length ≠ d.length ∨ ∃ i, i < d.length ∧ v[i]? ≠ d[i]?) := by
  have hsome : ∀ e ∈ D, (GoMap.get? A e.1).isSome :=
    fun e he => hall e.1 (List.mem_map_of_mem Prod.fst he)
  refine ⟨D.foldl (record A) [], ?_, ?_, ?_⟩
  · rw [compareVips, compareLoop_ok A D [] hsome]
  · exact foldl_record_wf A D [] (by simp [GoMap.WF, GoMap.keys])
  · intro k v
    rw [foldl_record_get? A D [] k v]
    constructor
    · rintro (⟨ha, e, he, hek, hev⟩ | ⟨h, _⟩)
      · obtain ⟨k', d⟩ := e
        simp only at hek hev
        subst hek
        exact ⟨d, GoMap.get?_eq_some_of_mem D hD k' d he, ha,
          (list_differs_iff v d).mp (fun e => hev e.symm)⟩
      · simp [GoMap.get?] at h
    · rintro ⟨d, hd, ha, hdiff⟩
      left
      exact ⟨ha, (k, d), GoMap.mem_of_get?_eq_some D k d hd, rfl,
        fun e => (list_differs_iff v d).mpr hdiff e.symm⟩

/-- C5 at the scenario of the specification: declared `vip-1 ↦ [ruleA, ruleB]`, actual
`vip-1 ↦ [ruleB, ruleA]`. -/
theorem compareVips_divergence_witness :
    ∃ m, compareVips [(str "vip-1", [str "ruleB", str "ruleA"])]
        [(str "vip-1", [str "ruleA", str "ruleB"])] = .ok m ∧ GoMap.WF m ∧
      ∀ (k : GoString) (v : List GoString), GoMap.get? m k = some v ↔
        ∃ d, GoMap.get? [(str "vip-1", [str "ruleA", str "ruleB"])] k = some d ∧
          GoMap.get? [(str "vip-1", [str "ruleB", str "ruleA"])] k = some v ∧
          (v.length ≠ d.length ∨ ∃ i, i < d.length ∧ v[i]? ≠ d[i]?) :=
  compareVips_divergence [(str "vip-1", [str "ruleB", str "ruleA"])]
    [(str "vip-1", [str "ruleA", str "ruleB"])] (by decide) (by decide)


/-! ## Token Extractor: auxiliary facts -/

theorem name_ne_irules : str "name" ≠ str "irules" := by decide

theorem decodeLoop_nil (n : GoString) (r : List GoString) : decodeLoop [] n r = (n, r) := by
  rw [decodeLoop]

theorem decodeLoop_delim (d : Delim) (rest : List Token) (n : GoString) (r : List GoString) :
    decodeLoop (.delim d :: rest) n r = decodeLoop rest n r := by
  rw [decodeLoop]
  intro _ h
  cases h

theorem decodeLoop_number (x : Int) (rest : List Token) (n : GoString) (r : List GoString) :
    decodeLoop (.number x :: rest) n r = decodeLoop rest n r := by
  rw [decodeLoop]
  intro _ h
  cases h

theorem decodeLoop_bool (b : Bool) (rest : List Token) (n : GoString) (r : List GoString) :
    decodeLoop (.bool b :: rest) n r = decodeLoop rest n r := by
  rw [decodeLoop]
  intro _ h
  cases h

theorem decodeLoop_null (rest : List Token) (n : GoString) (r : List GoString) :
    decodeLoop (.null :: rest) n r = decodeLoop rest n r := by
  rw [decodeLoop]
  intro _ h
  cases h

theorem decodeLoop_other (p : GoString) (rest : List Token) (n : GoString) (r : List GoString)
    (h1 : p ≠ str "name") (h2 : p ≠ str "irules") :
    decodeLoop (.string p :: rest) n r = decodeLoop rest n r := by
  rw [decodeLoop]
  simp [h1, h2]

theorem decodeLoop_name (rest : List Token) (n : GoString) (r : List GoString) :
    decodeLoop (.string (str "name") :: rest) n r =
      decodeLoop (nameLoop rest n).2 (nameLoop rest n).1 r := by
  rw [decodeLoop]
  simp [name_ne_irules]

theorem decodeLoop_irules (rest : List Token) (n : GoString) (r : List GoString) :
    decodeLoop (.string (str "irules") :: rest) n r =
      decodeLoop (irulesLoop rest r).2 n (irulesLoop rest r).1 := by
  rw [decodeLoop]
  simp [name_ne_irules.symm]

theorem nameLoop_string (s : GoString) (rest : List Token) (n : GoString) :
    nameLoop (.string s :: rest) n = (s, rest) := by
  simp [nameLoop, more]

theorem irulesLoop_scalars (xs : List Json) (h : xs.all Json.isScalar = true) (rest : List Token)
    (r : List GoString) :
    irulesLoop (tokensElems xs ++ .delim .rbracket :: rest) r =
      (r ++ stringElems xs, .delim .rbracket :: rest) := by
  induction xs generalizing r with
  | nil => simp [tokensElems, irulesLoop, more, stringElems]
  | cons x xs ih =>
    simp only [List.all_cons, Bool.and_eq_true] at h
    cases x with
    | null => simp [tokensElems, Json.tokens, irulesLoop, more, stringElems, ih h.2]
    | bool b => simp [tokensElems, Json.tokens, irulesLoop, more, stringElems, ih h.2]
    | number x => simp [tokensElems, Json.tokens, irulesLoop, more, stringElems, ih h.2]
    | string s => simp [tokensElems, Json.tokens, irulesLoop, more, stringElems, ih h.2]
    | array e => simp [Json.isScalar] at h
    | object m => simp [Json.isScalar] at h

theorem scalars_no_fields (xs : List Json) (h : xs.all Json.isScalar = true) :
    nameFieldValuesElems xs = [] ∧ irulesFieldValuesElems xs = [] := by
  induction xs with
  | nil => simp [nameFieldValuesElems, irulesFieldValuesElems]
  | cons x xs ih =>
    simp only [List.all_cons, Bool.and_eq_true] at h
    cases x <;>
      simp_all [nameFieldValuesElems, irulesFieldValuesElems, Json.nameFieldValues,
        Json.irulesFieldValues, Json.isScalar]

theorem lastOr_nil (n : GoString) : lastOr n [] = n := rfl

theorem lastOr_append (n : GoString) (xs ys : List GoString) :
    lastOr n (xs ++ ys) = lastOr (lastOr n xs) ys := by
  simp [lastOr, List.foldl_append]

theorem lastOr_eq (n : GoString) (xs : List GoString) : lastOr n xs = xs.getLast?.getD n := by
  induction xs generalizing n with
  | nil => rfl
  | cons x xs ih =>
    have h := ih x
    simp only [lastOr, List.foldl_cons] at h ⊢
    rw [h]
    cases xs with
    | nil => rfl
    | cons y ys =>
      rw [List.getLast?_eq_getLast _ (List.cons_ne_nil y ys)]
      rfl

mutual
theorem decodeLoop_tokens (t : Json) (h : t.plain = true) (rest : List Token) (n : GoString)
    (r : List GoString) :
    decodeLoop (t.tokens ++ rest) n r =
      decodeLoop rest (lastOr n t.nameFieldValues) (r ++ t.irulesFieldValues) := by
  match t with
  | .null => simp [Json.tokens, decodeLoop_null, Json.nameFieldValues, Json.irulesFieldValues, lastOr]
  | .bool b => simp [Json.tokens, decodeLoop_bool, Json.nameFieldValues, Json.irulesFieldValues, lastOr]
  | .number x => simp [Json.tokens, decodeLoop_number, Json.nameFieldValues, Json.irulesFieldValues, lastOr]
  | .string s =>
    simp only [Json.plain, Bool.and_eq_true, decide_eq_true_eq] at h
    simp [Json.tokens, decodeLoop_other _ _ _ _ h.1 h.2, Json.nameFieldValues,
      Json.irulesFieldValues, lastOr]
  | .array elems =>
    simp only [Json.plain] at h
    simp only [Json.tokens, List.cons_append, List.append_assoc, decodeLoop_delim,
      Json.nameFieldValues, Json.irulesFieldValues]
    rw [decodeLoop_tokensElems elems h]
    simp [decodeLoop_delim]
  | .object members =>
    simp only [Json.plain] at h
    simp only [Json.tokens, List.cons_append, List.append_assoc, decodeLoop_delim,
      Json.nameFieldValues, Json.irulesFieldValues]
    rw [decodeLoop_tokensMembers members h]
    simp [decodeLoop_delim]
theorem decodeLoop_tokensElems (xs : List Json) (h : plainElems xs = true) (rest : List Token)
    (n : GoString) (r : List GoString) :
    decodeLoop (tokensElems xs ++ rest) n r =
      decodeLoop rest (lastOr n (nameFieldValuesElems xs)) (r ++ irulesFieldValuesElems xs) := by
  match xs with
  | [] => simp [tokensElems, nameFieldValuesElems, irulesFieldValuesElems, lastOr]
  | x :: xs =>
    simp only [plainElems, Bool.and_eq_true] at h
    simp only [tokensElems, List.append_assoc, nameFieldValuesElems, irulesFieldValuesElems]
    rw [decodeLoop_tokens x h.1, decodeLoop_tokensElems xs h.2, lastOr_append, List.append_assoc]
theorem decodeLoop_tokensMembers (ms : List (GoString × Json)) (h : plainMembers ms = true)
    (rest : List Token) (n : GoString) (r : List GoString) :
    decodeLoop (tokensMembers ms ++ rest) n r =
      decodeLoop rest (lastOr n (nameFieldValuesMembers ms)) (r ++ irulesFieldValuesMembers ms) := by
  match ms with
  | [] => simp [tokensMembers, nameFieldValuesMembers, irulesFieldValuesMembers, lastOr]
  | (k, v) :: ms =>
    simp only [plainMembers, Bool.and_eq_true] at h
    obtain ⟨hv, hms⟩ := h
    simp only [tokensMembers, List.cons_append, List.append_assoc, nameFieldValuesMembers,
      irulesFieldValuesMembers]
    by_cases hk : k = str "name"
    · subst hk
      simp only [if_true] at hv
      match v, hv with
      | .string s, _ =>
        rw [decodeLoop_name]
        simp only [Json.tokens, List.cons_append, List.nil_append, nameLoop_string]
        rw [decodeLoop_tokensMembers ms hms]
        simp [scalarString, Json.nameFieldValues, Json.irulesFieldValues, name_ne_irules,
          lastOr_append, lastOr]
    · by_cases hk' : k = str "irules"
      · subst hk'
        simp only [hk, if_false, if_true] at hv
        match v, hv with
        | .array elems, hv =>
          simp only [Json.isScalarArray] at hv
          rw [decodeLoop_irules]
          simp only [Json.tokens, List.cons_append, List.append_assoc, List.nil_append]
          have hloop : irulesLoop (Token.delim Delim.lbracket ::
              (tokensElems elems ++ Token.delim Delim.rbracket :: (tokensMembers ms ++ rest))) r =
              (r ++ stringElems elems, .delim .rbracket :: (tokensMembers ms ++ rest)) := by
            simp [irulesLoop, more, irulesLoop_scalars elems hv]
          simp only [List.singleton_append, hloop, decodeLoop_delim]
          rw [decodeLoop_tokensMembers ms hms]
          have hno := scalars_no_fields elems hv
          simp [fieldStrings, Json.nameFieldValues, Json.irulesFieldValues, hk, hno.1, hno.2,
            lastOr_append, lastOr]
      · simp only [hk, hk', if_false] at hv
        rw [decodeLoop_other _ _ _ _ hk hk', decodeLoop_tokens v hv,
          decodeLoop_tokensMembers ms hms]
        simp [hk, hk', lastOr_append]
end

theorem decodeJSON_plain (t : Json) (h : t.plain = true) :
    decodeJSON t.tokens = (lastOr [] t.nameFieldValues, t.irulesFieldValues) := by
  have := decodeLoop_tokens t h [] [] []
  simpa [decodeJSON, decodeLoop_nil] using this

theorem strings_scalar (rs : List GoString) : (rs.map Json.string).all Json.isScalar = true := by
  induction rs with
  | nil => rfl
  | cons r rs ih => simp [Json.isScalar, ih]

theorem stringElems_strings (rs : List GoString) : stringElems (rs.map Json.string) = rs := by
  induction rs with
  | nil => rfl
  | cons r rs ih => simp [stringElems, ih]

mutual
theorem nameFieldValues_eq (t : Json) :
    t.nameFieldValues = (t.fieldValues (str "name")).flatMap scalarString := by
  match t with
  | .null => simp [Json.nameFieldValues, Json.fieldValues]
  | .bool b => simp [Json.nameFieldValues, Json.fieldValues]
  | .number x => simp [Json.nameFieldValues, Json.fieldValues]
  | .string s => simp [Json.nameFieldValues, Json.fieldValues]
  | .array elems => simpa [Json.nameFieldValues, Json.fieldValues] using nameFieldValuesElems_eq elems
  | .object members =>
    simpa [Json.nameFieldValues, Json.fieldValues] using nameFieldValuesMembers_eq members
theorem nameFieldValuesElems_eq (xs : List Json) :
    nameFieldValuesElems xs = (fieldValuesElems (str "name") xs).flatMap scalarString := by
  match xs with
  | [] => simp [nameFieldValuesElems, fieldValuesElems]
  | x :: xs =>
    simp only [nameFieldValuesElems, fieldValuesElems, List.flatMap_append]
    rw [nameFieldValues_eq x, nameFieldValuesElems_eq xs]
theorem nameFieldValuesMembers_eq (ms : List (GoString × Json)) :
    nameFieldValuesMembers ms = (fieldValuesMembers (str "name") ms).flatMap scalarString := by
  match ms with
  | [] => simp [nameFieldValuesMembers, fieldValuesMembers]
  | (k, v) :: ms =>
    simp only [nameFieldValuesMembers, fieldValuesMembers, List.flatMap_append]
    rw [nameFieldValues_eq v, nameFieldValuesMembers_eq ms]
    by_cases hk : k = str "name" <;> simp [hk]
end

mutual
theorem irulesFieldValues_eq (t : Json) :
    t.irulesFieldValues = (t.fieldValues (str "irules")).flatMap fieldStrings := by
  match t with
  | .null => simp [Json.irulesFieldValues, Json.fieldValues]
  | .bool b => simp [Json.irulesFieldValues, Json.fieldValues]
  | .number x => simp [Json.irulesFieldValues, Json.fieldValues]
  | .string s => simp [Json.irulesFieldValues, Json.fieldValues]
  | .array elems =>
    simpa [Json.irulesFieldValues, Json.fieldValues] using irulesFieldValuesElems_eq elems
  | .object members =>
    simpa [Json.irulesFieldValues, Json.fieldValues] using irulesFieldValuesMembers_eq members
theorem irulesFieldValuesElems_eq (xs : List Json) :
    irulesFieldValuesElems xs = (fieldValuesElems (str "irules") xs).flatMap fieldStrings := by
  match xs with
  | [] => simp [irulesFieldValuesElems, fieldValuesElems]
  | x :: xs =>
    simp only [irulesFieldValuesElems, fieldValuesElems, List.flatMap_append]
    rw [irulesFieldValues_eq x, irulesFieldValuesElems_eq xs]
theorem irulesFieldValuesMembers_eq (ms : List (GoString × Json)) :
    irulesFieldValuesMembers ms =
      (fieldValuesMembers (str "irules") ms).flatMap fieldStrings := by
  match ms with
  | [] => simp [irulesFieldValuesMembers, fieldValuesMembers]
  | (k, v) :: ms =>
    simp only [irulesFieldValuesMembers, fieldValuesMembers, List.flatMap_append]
    rw [irulesFieldValues_eq v, irulesFieldValuesMembers_eq ms]
    by_cases hk : k = str "irules" <;> simp [hk]
end

theorem decodeJSON_core (n : GoString) (rs : List GoString) (core : List (GoString × Json))
    (h : core = [(str "name", .string n), (str "irules", .array (rs.map .string))] ∨
      core = [(str "irules", .array (rs.map .string)), (str "name", .string n)]) :
    plainMembers core = true ∧ lastOr [] (nameFieldValuesMembers core) = n ∧
      irulesFieldValuesMembers core = rs := by
  have h1 := strings_scalar rs
  have h2 := scalars_no_fields _ h1
  have h3 := stringElems_strings rs
  rcases h with h | h <;> subst h <;>
    simp [plainMembers, nameFieldValuesMembers, irulesFieldValuesMembers, Json.isString,
      Json.isScalarArray, name_ne_irules, name_ne_irules.symm, scalarString, fieldStrings,
      Json.nameFieldValues, Json.irulesFieldValues, h1, h2, h3, lastOr]

theorem decodeJSON_eval (t : Json) (h : t.plain = true) (n : GoString) (rs : List GoString)
    (hn : lastOr [] t.nameFieldValues = n) (hr : t.irulesFieldValues = rs) :
    decodeJSON t.tokens = (n, rs) := by
  rw [decodeJSON_plain t h, hn, hr]

/-! ## Token Extractor: the claims -/

/-- C6, as stated, fails: in `laterNameTree` the first field keyed `name` holds `vip-a` but the
later one, `vip-b`, is returned; in `nameValueTree` no field is keyed `name`, yet the string
value `"name"` makes the next key, `pool`, the returned name. -/
theorem decodeJSON_name_counterexample :
    (laterNameTree.nameFieldValues.head? = some (str "vip-a") ∧
      (decodeJSON laterNameTree.tokens).1 = str "vip-b") ∧
    (nameValueTree.nameFieldValues = [] ∧ (decodeJSON nameValueTree.tokens).1 = str "pool") := by
  refine ⟨⟨by decide, ?_⟩, by decide, ?_⟩
  · rw [decodeJSON_eval laterNameTree (by decide) (str "vip-b") [] (by decide) (by decide)]
  · simp +decide [decodeJSON, nameValueTree, Json.tokens, tokensMembers, tokensElems, decodeLoop,
      nameLoop, irulesLoop, more]

/-- C6, amended: for every plain tree (every field keyed `name` holds a scalar string, every
field keyed `irules` holds a list of scalars, no other string value is `"name"` or `"irules"`),
`decodeJSON` over the tree's token stream returns as the name the value of the last field
keyed `name` in document order, at whatever depth, and the empty string when there is none;
it is the first such value when the tree has at most one field keyed `name`. -/
theorem decodeJSON_name (t : Json) (h : t.plain = true) :
    (decodeJSON t.tokens).1 = t.nameFieldValues.getLast?.getD (str "") ∧
    (t.nameFieldValues.length ≤ 1 →
      (decodeJSON t.tokens).1 = t.nameFieldValues.head?.getD (str "")) := by
  have hlast : (decodeJSON t.tokens).1 = t.nameFieldValues.getLast?.getD (str "") := by
    rw [decodeJSON_plain t h, lastOr_eq]
    rfl
  refine ⟨hlast, fun hlen => ?_⟩
  rw [hlast]
  match hv : t.nameFieldValues, hlen with
  | [], _ => rfl
  | [x], _ => rfl
  | _ :: _ :: _, hlen => simp at hlen

/-- C6 at a declarative file: the name extracted from `checkoutFile` is the value of its only
field keyed `name`. -/
theorem decodeJSON_name_witness :
    checkoutFile.plain = true ∧
    ((decodeJSON checkoutFile.tokens).1 = checkoutFile.nameFieldValues.getLast?.getD (str "") ∧
     (checkoutFile.nameFieldValues.length ≤ 1 →
      (decodeJSON checkoutFile.tokens).1 = checkoutFile.nameFieldValues.head?.getD (str ""))) :=
  ⟨by decide, decodeJSON_name checkoutFile (by decide)⟩

/-- C7, as stated, fails: in `scalarIrulesTree` the field `irules` holds the single string
`rule-a`, but the returned rule sequence also holds the following keys and values (and the
name stays empty, the key `name` having been read as a rule). -/
theorem decodeJSON_irules_counterexample :
    scalarIrulesTree.irulesFieldValues = [str "rule-a"] ∧
    decodeJSON scalarIrulesTree.tokens =
      (str "", [str "rule-a", str "name", str "/Common/checkout", str "pool", str "web"]) := by
  refine ⟨by decide, ?_⟩
  simp +decide [decodeJSON, scalarIrulesTree, Json.tokens, tokensMembers, tokensElems, decodeLoop,
    nameLoop, irulesLoop, more]

/-- C7, amended: for every plain tree (every field keyed `irules` holds a list of scalars,
every field keyed `name` holds a scalar string, no other string value is `"name"` or
`"irules"`), `decodeJSON` over the tree's token stream returns as the rule sequence exactly
the string elements of the lists held by the fields keyed `irules`, at any depth, in list
order, the occurrences appended in document order, and no string of another field. -/
theorem decodeJSON_irules (t : Json) (h : t.plain = true) :
    (decodeJSON t.tokens).2 = t.irulesFieldValues := by
  rw [decodeJSON_plain t h]

/-- C7 at a declarative file: the rules extracted from `checkoutFile` are the elements of its
list `irules`. -/
theorem decodeJSON_irules_witness :
    checkoutFile.plain = true ∧
    (decodeJSON checkoutFile.tokens).2 = checkoutFile.irulesFieldValues :=
  ⟨by decide, decodeJSON_irules checkoutFile (by decide)⟩

/-- C8, as stated, fails: `extraValueTree` holds exactly one field keyed `name` and one keyed
`irules`, next to two extra fields keyed `description` and `pool`; the extra string value
`"irules"` adds the key `irules` to the rule sequence, which differs from that of the minimal
tree. -/
theorem decodeJSON_extra_fields_counterexample :
    extraValueTree.fieldValues (str "name") = [.string (str "/Common/checkout")] ∧
    extraValueTree.fieldValues (str "irules") = [.array ([str "rule-a"].map .string)] ∧
    decodeJSON extraValueTree.tokens =
      (str "/Common/checkout", [str "irules", str "rule-a"]) ∧
    decodeJSON (Json.object [(str "name", .string (str "/Common/checkout")),
      (str "irules", .array ([str "rule-a"].map .string))]).tokens =
      (str "/Common/checkout", [str "rule-a"]) := by
  refine ⟨rfl, rfl, ?_, ?_⟩
  · simp +decide [decodeJSON, extraValueTree, Json.tokens, tokensMembers, tokensElems,
      decodeLoop, nameLoop, irulesLoop, more]
  · exact decodeJSON_eval _ (by decide) _ _ (by decide) (by decide)

/-- C8, amended: for every string `n`, every list of strings `rs` and every tree `T`, of any
nesting, whose only field keyed `name` holds `n` and whose only field keyed `irules` holds the
list `rs` (at whatever depth and position), together with any extra fields keyed otherwise,
provided `T` is plain (no string value outside those two fields is `"name"` or `"irules"`),
`decodeJSON` on `T` returns `(n, rs)`, the same as on the minimal tree containing only those
two fields. -/
theorem decodeJSON_extra_fields (n : GoString) (rs : List GoString) (T : Json)
    (hplain : T.plain = true)
    (hname : T.fieldValues (str "name") = [.string n])
    (hirules : T.fieldValues (str "irules") = [.array (rs.map .string)]) :
    decodeJSON T.tokens = (n, rs) ∧
      decodeJSON (Json.object [(str "name", .string n),
        (str "irules", .array (rs.map .string))]).tokens = (n, rs) := by
  have hmin := decodeJSON_core n rs _ (Or.inl rfl)
  constructor
  · rw [decodeJSON_plain T hplain, nameFieldValues_eq, irulesFieldValues_eq, hname, hirules]
    simp [scalarString, fieldStrings, stringElems_strings, lastOr]
  · rw [decodeJSON_plain _ (by simpa [Json.plain] using hmin.1)]
    simp only [Json.nameFieldValues, Json.irulesFieldValues, hmin.2.1, hmin.2.2]

/-- C8 at a declarative file: in `checkoutFile` the fields `name` and `irules` lie four levels
deep, among the extra fields `resource`, `bigip_ltm_virtual_server`, `ltm_vs_checkout`,
`destination` and `port`. -/
theorem decodeJSON_extra_fields_witness :
    decodeJSON checkoutFile.tokens = (str "/Common/checkout", [str "rule-a", str "rule-b"]) ∧
    decodeJSON (Json.object [(str "name", .string (str "/Common/checkout")),
      (str "irules", .array ([str "rule-a", str "rule-b"].map .string))]).tokens =
      (str "/Common/checkout", [str "rule-a", str "rule-b"]) :=
  decodeJSON_extra_fields (str "/Common/checkout") [str "rule-a", str "rule-b"] checkoutFile
    (by decide) rfl rfl

/-! ## Declarative File Loader: auxiliary facts -/

theorem terraformVipLoop_cons_ok (load : GoString → GoString → Json) (dir name : GoString)
    (rest : List GoString) (acc : GoMap)
    (h : 8 ≤ (parseTerraformFiles load dir name).1.length) :
    terraformVipLoop load dir (name :: rest) acc =
      terraformVipLoop load dir rest
        (GoMap.set acc ((parseTerraformFiles load dir name).1.drop 8)
          (parseTerraformFiles load dir name).2) := by
  have hlt : ¬ (parseTerraformFiles load dir name).1.length < 8 := by omega
  simp [terraformVipLoop, sliceFrom, hlt]

theorem terraformVipLoop_cons_panic (load : GoString → GoString → Json) (dir name : GoString)
    (rest : List GoString) (acc : GoMap)
    (h : (parseTerraformFiles load dir name).1.length < 8) :
    terraformVipLoop load dir (name :: rest) acc = .panic "slice bounds out of range" := by
  simp [terraformVipLoop, sliceFrom, h]

theorem terraformVipLoop_append (load : GoString → GoString → Json) (dir : GoString)
    (pre rest : List GoString) (acc : GoMap)
    (h : ∀ f ∈ pre, 8 ≤ (parseTerraformFiles load dir f).1.length) :
    ∃ m, terraformVipLoop load dir pre acc = .ok m ∧
      terraformVipLoop load dir (pre ++ rest) acc = terraformVipLoop load dir rest m := by
  induction pre generalizing acc with
  | nil => exact ⟨acc, by simp [terraformVipLoop], by simp⟩
  | cons f pre ih =>
    have hf := h f (List.mem_cons_self _ _)
    obtain ⟨m, hm1, hm2⟩ := ih (GoMap.set acc ((parseTerraformFiles load dir f).1.drop 8)
      (parseTerraformFiles load dir f).2) (fun g hg => h g (List.mem_cons_of_mem _ hg))
    refine ⟨m, ?_, ?_⟩
    · rw [terraformVipLoop_cons_ok load dir f pre acc hf, hm1]
    · rw [List.cons_append, terraformVipLoop_cons_ok load dir f _ acc hf, hm2]

/-! ## Declarative File Loader: the claims -/

/-- C9, as stated, fails: the prefix `ltm_vs_` has seven bytes, so the strip of eight bytes
turns `ltm_vs_checkout` into `heckout`; the rules are stored under that key and nothing is
stored under `checkout`. -/
theorem terraformVipDetails_prefix_counterexample :
    parseTerraformFiles (fun _ _ => ltmFile) (str "vips") (str "checkout.tf") =
      (str "ltm_vs_checkout", [str "rule-a"]) ∧
    terraformVipDetails (fun _ _ => ltmFile) (str "vips") [str "checkout.tf"] =
      .ok [(str "heckout", [str "rule-a"])] ∧
    GoMap.get? [(str "heckout", [str "rule-a"])] (str "checkout") = none := by
  have hparse : parseTerraformFiles (fun _ _ => ltmFile) (str "vips") (str "checkout.tf") =
      (str "ltm_vs_checkout", [str "rule-a"]) :=
    decodeJSON_eval ltmFile (by decide) _ _ (by decide) (by decide)
  refine ⟨hparse, ?_, by decide⟩
  rw [terraformVipDetails, terraformVipLoop_cons_ok _ _ _ _ _ (by rw [hparse]; decide), hparse]
  simp only [terraformVipLoop]
  decide

/-- C9, amended: for a declarative file whose extracted resource identifier is
`ltm_vs_checkout` with rule list `rs`, visited last after files whose extracted names have at
least eight bytes, `terraformVipDetails` stores `rs` under the key `heckout`, the identifier
without its first eight bytes; when it is the only file the map holds nothing else. -/
theorem terraformVipDetails_prefix (load : GoString → GoString → Json) (dir : GoString)
    (pre : List GoString) (file : GoString) (rs : List GoString)
    (hpre : ∀ f ∈ pre, 8 ≤ (parseTerraformFiles load dir f).1.length)
    (hfile : parseTerraformFiles load dir file = (str "ltm_vs_checkout", rs)) :
    ∃ m, terraformVipDetails load dir (pre ++ [file]) = .ok m ∧
      GoMap.get? m (str "heckout") = some rs ∧ (pre = [] → m = [(str "heckout", rs)]) := by
  obtain ⟨m₀, hm₀, happ⟩ := terraformVipLoop_append load dir pre [file] [] hpre
  have hlen : 8 ≤ (parseTerraformFiles load dir file).1.length := by
    rw [hfile]
    exact (by decide : 8 ≤ (str "ltm_vs_checkout").length)
  have hdrop : (str "ltm_vs_checkout").drop 8 = str "heckout" := by decide
  refine ⟨GoMap.set m₀ (str "heckout") rs, ?_, ?_, ?_⟩
  · rw [terraformVipDetails, happ, terraformVipLoop_cons_ok load dir file [] m₀ hlen, hfile]
    simp only [terraformVipLoop, hdrop]
  · rw [GoMap.get?_set]
    simp
  · intro hnil
    subst hnil
    simp only [terraformVipLoop] at hm₀
    cases hm₀
    rfl

/-- C9 at the file `ltmFile`, alone in its directory. -/
theorem terraformVipDetails_prefix_witness :
    ∃ m, terraformVipDetails (fun _ _ => ltmFile) (str "vips") ([] ++ [str "checkout.tf"]) =
        .ok m ∧
      GoMap.get? m (str "heckout") = some [str "rule-a"] ∧
      (([] : List GoString) = [] → m = [(str "heckout", [str "rule-a"])]) :=
  terraformVipDetails_prefix (fun _ _ => ltmFile) (str "vips") [] (str "checkout.tf")
    [str "rule-a"] (by simp)
    (decodeJSON_eval ltmFile (by decide) _ _ (by decide) (by decide))

/-- C10 fails on the code: a file with no field `name` has the empty string as extracted
name, and a file named `vip-1` has a name of five bytes; on either, the slice `vipName[8:]`
is out of range and `terraformVipDetails` panics instead of returning a mapping. -/
theorem terraformVipDetails_short_name_panics :
    (parseTerraformFiles (fun _ _ => noNameFile) (str "vips") (str "vip.tf") =
        (str "", [str "rule-a"]) ∧
      terraformVipDetails (fun _ _ => noNameFile) (str "vips") [str "vip.tf"] =
        .panic "slice bounds out of range") ∧
    (parseTerraformFiles (fun _ _ => shortNameFile) (str "vips") (str "vip.tf") =
        (str "vip-1", [str "rule-a"]) ∧
      terraformVipDetails (fun _ _ => shortNameFile) (str "vips") [str "vip.tf"] =
        .panic "slice bounds out of range") := by
  have h1 : parseTerraformFiles (fun _ _ => noNameFile) (str "vips") (str "vip.tf") =
      (str "", [str "rule-a"]) :=
    decodeJSON_eval noNameFile (by decide) _ _ (by decide) (by decide)
  have h2 : parseTerraformFiles (fun _ _ => shortNameFile) (str "vips") (str "vip.tf") =
      (str "vip-1", [str "rule-a"]) :=
    decodeJSON_eval shortNameFile (by decide) _ _ (by decide) (by decide)
  refine ⟨⟨h1, ?_⟩, h2, ?_⟩
  · exact terraformVipLoop_cons_panic _ _ _ _ _ (by rw [h1]; decide)
  · exact terraformVipLoop_cons_panic _ _ _ _ _ (by rw [h2]; decide)

end F5Validator
